import Mathlib

/-!
Verification development for the Markov Decision Process solver in `main.py`.

The Python program is embedded shallowly:

* Python `float` values that flow through the value-iteration engine are
  modelled by `PyQ`: an exact rational together with the IEEE special values
  `inf`, `-inf` and `nan`.  Every arithmetic operation the engine performs is
  either exact on the rationals involved or an IEEE special-value rule, so the
  embedding evaluates the very expressions the source evaluates.
* Python `dict`s (which preserve insertion order and update keys in place)
  are modelled by association lists `List (String × α)` with the functions
  `alookup` (lookup of the first matching key) and `dinsert`
  (in-place update when the key is present, append otherwise).
* Exceptions are modelled with `Except MDPError`; in-place mutation of the
  engine object is modelled by returning the mutated record next to the
  `Except` result, so the state left behind by a raised exception is visible.
* `sys.exit` / raised `ValueError` on an out-of-range discount is modelled as
  the error `InvalidDiscount`; an `IndexError` or `ValueError` while decoding
  the flat action-triple list is `MalformedActionTriple`; a `KeyError` while
  looking up a destination state during an iteration is
  `UnknownDestinationState`.  These are the names the documentation gives to
  the three failure classes of the program.
* Python's builtin `float(token)` string parser is kept abstract: functions
  that need it take a parameter `pf : String → Option ℚ` (`none` models a
  `ValueError`).  No result below depends on which strings `float` accepts.
-/

attribute [local semireducible] Rat.add Rat.mul Rat.inv Rat.sub

/-- Error taxonomy of the program: out-of-range discount factor at engine
construction, an undecodable `(action dest prob)` triple while building a
state, and an action whose destination state is missing from the state
collection during value iteration. -/
inductive MDPError where
  | InvalidDiscount
  | MalformedActionTriple
  | UnknownDestinationState
deriving DecidableEq, Repr

/-- Decidable equality of `Except` results, so that concrete runs of the
embedded program can be checked by evaluation. -/
instance exceptDecEq {e a : Type} [DecidableEq e] [DecidableEq a] : DecidableEq (Except e a) :=
  fun x y =>
    match x, y with
    | .ok v, .ok w =>
        if h : v = w then .isTrue (congrArg Except.ok h)
        else .isFalse (fun hh => h (Except.ok.inj hh))
    | .error v, .error w =>
        if h : v = w then .isTrue (congrArg Except.error h)
        else .isFalse (fun hh => h (Except.error.inj hh))
    | .ok _, .error _ => .isFalse (fun hh => Except.noConfusion hh)
    | .error _, .ok _ => .isFalse (fun hh => Except.noConfusion hh)

/-- Exact model of the Python floats the engine manipulates: a rational, or
one of the IEEE special values produced by `float("-inf")` arithmetic. -/
inductive PyQ where
  | fin : ℚ → PyQ
  | pinf
  | ninf
  | nan
deriving DecidableEq, Repr

/-- Python float addition, restricted to exact rationals and special values. -/
def PyQ.add : PyQ → PyQ → PyQ
  | .nan, _ => .nan
  | _, .nan => .nan
  | .pinf, .ninf => .nan
  | .ninf, .pinf => .nan
  | .pinf, _ => .pinf
  | _, .pinf => .pinf
  | .ninf, _ => .ninf
  | _, .ninf => .ninf
  | .fin a, .fin b => .fin (a + b)

/-- Python float multiplication by a finite scalar (the only multiplication
the engine performs: `probability * value` and `discount * value`).
`0.0 * inf` is `nan`, as in IEEE arithmetic. -/
def PyQ.smul (q : ℚ) : PyQ → PyQ
  | .fin b => .fin (q * b)
  | .pinf => if 0 < q then .pinf else if q < 0 then .ninf else .nan
  | .ninf => if 0 < q then .ninf else if q < 0 then .pinf else .nan
  | .nan => .nan

/-- Python float strict comparison `<`; any comparison with `nan` is false. -/
def PyQ.lt : PyQ → PyQ → Bool
  | .fin a, .fin b => decide (a < b)
  | .fin _, .pinf => true
  | .ninf, .fin _ => true
  | .ninf, .pinf => true
  | _, _ => false

/-- One entry of a policy snapshot.  The source stores a fresh `dict()` first
and fills the keys `"action"` and `"j_val"` afterwards; `empty` is the fresh
dict (observable when an iteration aborts midway), `full` is the filled one.
The action is `none` for Python `None` (iteration 0) and `some s` for a
string (possibly `""`, the initial value of `curr_best`). -/
inductive PEntry where
  | empty
  | full : Option String → PyQ → PEntry
deriving DecidableEq, Repr

/-- A policy snapshot: an insertion-ordered dict from state name to entry. -/
abbrev Snapshot := List (String × PEntry)

/-- The `actions` table of a state: action name → (destination → probability),
both levels insertion-ordered dicts. -/
abbrev ActionsDict := List (String × List (String × ℚ))

/-- Model of the nested class `MDP.state`: a reward and the grouped actions
table. -/
structure MDPState where
  reward : ℚ
  actions : ActionsDict
deriving DecidableEq, Repr

/-- Model of the class `MDP`: discount factor, insertion-ordered state
collection, and the growing list of snapshots `optimal_policies`. -/
structure MDP where
  discount : ℚ
  states : List (String × MDPState)
  optimal_policies : List Snapshot
deriving DecidableEq, Repr

/-- Lookup of the first binding of a key, i.e. Python `d[k]` returning
`none` for a `KeyError`. -/
def alookup {α : Type} : List (String × α) → String → Option α
  | [], _ => none
  | (k, v) :: rest, s => if k = s then some v else alookup rest s

/-- Python `d[k] = v`: update the binding in place when the key is present
(keeping its position), append the binding otherwise. -/
def dinsert {α : Type} : List (String × α) → String → α → List (String × α)
  | [], k, v => [(k, v)]
  | (k1, v1) :: rest, k, v =>
      if k1 = k then (k1, v) :: rest else (k1, v1) :: dinsert rest k v

/-- Net effect of the two source lines
`if action not in actions: actions[action] = dict()` and
`actions[action][to_state] = probability`. -/
def insertTriple (acts : ActionsDict) (a toSt : String) (p : ℚ) : ActionsDict :=
  match alookup acts a with
  | none => dinsert acts a (dinsert [] toSt p)
  | some inner => dinsert acts a (dinsert inner toSt p)

/-- Loop body of `MDP.state._parse_line`: consume the flat token list three
tokens at a time, stripping the leading `(` of the action token and the
trailing `)` of the probability token before parsing it with `pf`.  A
trailing group of fewer than three tokens is the source's `IndexError`, an
unparsable probability its `ValueError`; both are `MalformedActionTriple`. -/
def parseLineAux (pf : String → Option ℚ) : ActionsDict → List String → Except MDPError ActionsDict
  | acc, [] => .ok acc
  | acc, a :: t :: p :: rest =>
      match pf (p.dropRight 1) with
      | some prob => parseLineAux pf (insertTriple acc (a.drop 1) t prob) rest
      | none => .error .MalformedActionTriple
  | _, _ => .error .MalformedActionTriple

/-- `MDP.state._parse_line`. -/
def _parse_line (pf : String → Option ℚ) (actions_arr : List String) : Except MDPError ActionsDict :=
  parseLineAux pf [] actions_arr

/-- `MDP.state.__init__`: store the reward and the parsed actions table. -/
def mkState (pf : String → Option ℚ) (reward : ℚ) (actions_arr : List String) : Except MDPError MDPState :=
  match _parse_line pf actions_arr with
  | .ok acts => .ok { reward := reward, actions := acts }
  | .error e => .error e

/-- The probability tokens of a flat triple list: every third token of each
complete `(action, destination, probability)` group. -/
def probTokens : List String → List String
  | _ :: _ :: p :: rest => p :: probTokens rest
  | _ => []

/-- The decoded triple sequence of a flat token list, `none` when the length
is not a multiple of three or some probability fails to parse.  Used to state
properties of `_parse_line`; the grouping the source performs is a left fold
of `insertTriple` over this sequence. -/
def parsedTriples (pf : String → Option ℚ) : List String → Option (List (String × String × ℚ))
  | [] => some []
  | a :: t :: p :: rest =>
      match pf (p.dropRight 1), parsedTriples pf rest with
      | some q, some ts => some ((a.drop 1, t, q) :: ts)
      | _, _ => none
  | _ => none

/-- Lookup of `actions[a][toSt]` through both dict levels. -/
def nestedLookup (d : ActionsDict) (a toSt : String) : Option ℚ :=
  (alookup d a).bind (fun inner => alookup inner toSt)

/-- Inner loop of `MDP._get_best_action`: the running sum
`temp_max += probability * optimal_policies[iteration-1][to_state]["j_val"]`,
starting from `float(0)`.  A missing destination (or a destination whose
entry was never filled) is the source's `KeyError`. -/
def expectedAux (prev : Snapshot) : PyQ → List (String × ℚ) → Except MDPError PyQ
  | acc, [] => .ok acc
  | acc, (toSt, p) :: rest =>
      match alookup prev toSt with
      | some (PEntry.full _ v) => expectedAux prev (acc.add (PyQ.smul p v)) rest
      | _ => .error .UnknownDestinationState

/-- Outer loop of `MDP._get_best_action` over the actions dict, carrying
`curr_best`; an action replaces `curr_best` only when
`curr_best[1] < temp_max`. -/
def getBestAux (prev : Snapshot) : (String × PyQ) → List (String × List (String × ℚ)) → Except MDPError (String × PyQ)
  | curr, [] => .ok curr
  | curr, (a, outs) :: rest =>
      match expectedAux prev (.fin 0) outs with
      | .error e => .error e
      | .ok tm =>
          if curr.2.lt tm then getBestAux prev (a, tm) rest
          else getBestAux prev curr rest

/-- `MDP._get_best_action`, with `curr_best = ["", float("-inf")]`. -/
def MDP._get_best_action (prev : Snapshot) (sm : MDPState) : Except MDPError (String × PyQ) :=
  getBestAux prev ("", PyQ.ninf) sm.actions

/-- Per-state loop of one iteration of `MDP.find_optimal_policies`: for each
state, first store a fresh entry (`self.optimal_policies[i][state] = dict()`),
then compute the best action — which may raise, leaving the fresh entry
behind — and fill the entry with the chosen action and
`reward + discount * best_action[1]`. -/
def computeSnapshotAux (d : ℚ) (prev : Snapshot) : List (String × MDPState) → Snapshot → (Except MDPError Unit) × Snapshot
  | [], acc => (.ok (), acc)
  | (st, sm) :: rest, acc =>
      let acc1 := dinsert acc st PEntry.empty
      match MDP._get_best_action prev sm with
      | .error e => (.error e, acc1)
      | .ok ba =>
          computeSnapshotAux d prev rest
            (dinsert acc1 st (PEntry.full (some ba.1)
              ((PyQ.fin sm.reward).add (PyQ.smul d ba.2))))

/-- The `for i in range(len(self.optimal_policies), iterations)` loop of
`MDP.find_optimal_policies`, one appended snapshot per step.  Each step reads
`optimal_policies[i-1]`, the last snapshot so far (engine-built histories are
never empty).  On an exception the partially-built snapshot has already been
appended, exactly as the in-place Python mutation leaves it. -/
def extendLoop (m : MDP) : ℕ → (Except MDPError Unit) × MDP
  | 0 => (.ok (), m)
  | c + 1 =>
      let prev := m.optimal_policies.getLastD []
      match computeSnapshotAux m.discount prev m.states [] with
      | (.ok _, snap) =>
          extendLoop { m with optimal_policies := m.optimal_policies ++ [snap] } c
      | (.error e, snap) =>
          (.error e, { m with optimal_policies := m.optimal_policies ++ [snap] })

/-- `MDP.find_optimal_policies`: extend the snapshot history to `iterations`
entries when it is shorter, otherwise do nothing. -/
def MDP.find_optimal_policies (m : MDP) (iterations : ℕ) : (Except MDPError Unit) × MDP :=
  if m.optimal_policies.length < iterations then
    extendLoop m (iterations - m.optimal_policies.length)
  else (.ok (), m)

/-- `MDP.__init__` (file parsing, an external collaborator, is not part of
the engine: the decoded state collection is passed directly).  Snapshot 0
maps every state to action `None` and value `reward`. -/
def MDP.init (discount : ℚ) (states : List (String × MDPState)) : Except MDPError MDP :=
  if discount < 0 ∨ 1 < discount then .error .InvalidDiscount
  else .ok
    { discount := discount
      states := states
      optimal_policies :=
        [states.map (fun p => (p.1, PEntry.full none (PyQ.fin p.2.reward)))] }

/-- Python `str` applied to the stored action: `str(None) = "None"`. -/
def pyStr : Option String → String
  | none => "None"
  | some s => s

/-- Zero-pad a digit string on the left to four characters. -/
def pad4 (s : String) : String :=
  String.mk (List.replicate (4 - s.length) '0') ++ s

/-- Round a rational to the nearest integer, halves upward (the values the
program prints are exact at four decimals, so the tie rule is immaterial). -/
def ratRound (q : ℚ) : ℤ :=
  (q + 1/2).num.fdiv ((q + 1/2).den : ℤ)

/-- Fixed four-decimal rendering of a rational, modelling
`format(value, ".4f")`. -/
def fmtRat4 (q : ℚ) : String :=
  let a := if q < 0 then -q else q
  let n := (ratRound (a * 10000)).toNat
  (if q < 0 then "-" else "") ++ toString (n / 10000) ++ "." ++ pad4 (toString (n % 10000))

/-- `format(value, ".4f")` on the engine's float values. -/
def PyQ.format4 : PyQ → String
  | .fin q => fmtRat4 q
  | .pinf => "inf"
  | .ninf => "-inf"
  | .nan => "nan"

/-- The ` ({state} {action} {value:.4f})` segment appended per snapshot
entry (an unfilled entry contributes through `policy_line_aux`, not here). -/
def segOfEntry (st : String) : PEntry → String
  | PEntry.full a v => " (" ++ st ++ " " ++ pyStr a ++ " " ++ PyQ.format4 v ++ ")"
  | PEntry.empty => ""

/-- Loop of `MDP._optimal_policy_str` over the snapshot's entries; reading an
unfilled entry is the source's `KeyError`, modelled as `none`. -/
def policy_line_aux : String → Snapshot → Option String
  | acc, [] => some acc
  | acc, (st, PEntry.full a v) :: rest =>
      policy_line_aux (acc ++ segOfEntry st (PEntry.full a v)) rest
  | _, (_, PEntry.empty) :: _ => none

/-- `MDP._optimal_policy_str`. -/
def MDP._optimal_policy_str (snap : Snapshot) (iteration : ℕ) : Option String :=
  policy_line_aux ("After iteration " ++ toString (iteration + 1) ++ ":") snap

/-- The list comprehension of `MDP.optimal_policy_strs`. -/
def strs_aux (m : MDP) : List ℕ → Option (List String)
  | [] => some []
  | i :: rest =>
      match MDP._optimal_policy_str (m.optimal_policies.getD i []) i, strs_aux m rest with
      | some s, some l => some (s :: l)
      | _, _ => none

/-- `MDP.optimal_policy_strs`: join one line per iteration in
`range(min(end, len(self.optimal_policies)))`.  A pure read of the engine. -/
def MDP.optimal_policy_strs (m : MDP) (e : ℕ) : Option String :=
  (strs_aux m (List.range (min e m.optimal_policies.length))).map
    (String.intercalate "\n")

/-- Spec-side view of an optional entry's action (refinement comparison). -/
def entryActionD : Option PEntry → Option String
  | some (PEntry.full a _) => a
  | _ => none

/-- Spec-side view of an optional entry's value (refinement comparison). -/
def entryValD : Option PEntry → PyQ
  | some (PEntry.full _ v) => v
  | _ => PyQ.fin 0

/-- Spec-side description of one rendered line, following the specification's
words: the header `After iteration i+1:` followed by one
` ({state} {action} {value:.4f})` segment for every state in the engine's
stored state order, values taken from cached snapshot `i`. -/
def specLine (m : MDP) (i : ℕ) : String :=
  "After iteration " ++ toString (i + 1) ++ ":" ++
    String.join (m.states.map (fun p =>
      " (" ++ p.1 ++ " " ++
        pyStr (entryActionD (alookup (m.optimal_policies.getD i []) p.1)) ++ " " ++
        PyQ.format4 (entryValD (alookup (m.optimal_policies.getD i []) p.1)) ++ ")"))

/-- Spec-side list of per-action expected values, in stored action order
(used to state the best-action selection property). -/
def expectedsOf (prev : Snapshot) : List (String × List (String × ℚ)) → Except MDPError (List PyQ)
  | [] => .ok []
  | p :: rest =>
      match expectedAux prev (.fin 0) p.2, expectedsOf prev rest with
      | .ok v, .ok vs => .ok (v :: vs)
      | .error e, _ => .error e
      | _, .error e => .error e

/-- The two-state scenario of the specification: `S1` with reward 0 and
actions `a → S1` (prob 1) and `b → S2` (prob 1), and `S2` with reward 10 and
no actions. -/
def demoStates : List (String × MDPState) :=
  [("S1", { reward := 0, actions := [("a", [("S1", 1)]), ("b", [("S2", 1)])] }),
   ("S2", { reward := 10, actions := [] })]

/-- The engine over `demoStates` with discount `0.9`, as `MDP.init` builds it. -/
def demoMDP : MDP :=
  { discount := 9/10
    states := demoStates
    optimal_policies :=
      [demoStates.map (fun p => (p.1, PEntry.full none (PyQ.fin p.2.reward)))] }

/-- A chain whose only action leads to an action-less state: `S1` with reward
0 and action `a → S2` (prob 1), `S2` with reward 10 and no actions. -/
def cexStates : List (String × MDPState) :=
  [("S1", { reward := 0, actions := [("a", [("S2", 1)])] }),
   ("S2", { reward := 10, actions := [] })]

/-- The engine over `cexStates` with discount `0.9`. -/
def cexMDP : MDP :=
  { discount := 9/10
    states := cexStates
    optimal_policies :=
      [cexStates.map (fun p => (p.1, PEntry.full none (PyQ.fin p.2.reward)))] }

/-- A state whose action references a destination absent from the state
collection. -/
def badStates : List (String × MDPState) :=
  [("S1", { reward := 0, actions := [("a", [("S9", 1)])] })]

/-- The engine over `badStates` with discount `0.5`. -/
def badMDP : MDP :=
  { discount := 1/2
    states := badStates
    optimal_policies :=
      [badStates.map (fun p => (p.1, PEntry.full none (PyQ.fin p.2.reward)))] }

/-! ### Association-list lemmas -/

lemma alookup_map {α β : Type} (g : α → β) :
    ∀ (l : List (String × α)) (s : String),
      alookup (l.map (fun p => (p.1, g p.2))) s = (alookup l s).map g := by
  intro l s
  induction l with
  | nil => simp [alookup]
  | cons p rest ih =>
      obtain ⟨k, v⟩ := p
      by_cases h : k = s
      · simp [alookup, h]
      · simp [alookup, h, ih]

lemma alookup_dinsert {α : Type} :
    ∀ (d : List (String × α)) (k : String) (v : α) (s : String),
      alookup (dinsert d k v) s = if s = k then some v else alookup d s := by
  intro d k v
  induction d with
  | nil =>
      intro s
      simp only [dinsert, alookup]
      by_cases h : k = s
      · subst h; simp
      · rw [if_neg h, if_neg (fun hh => h hh.symm)]
  | cons p rest ih =>
      obtain ⟨k1, v1⟩ := p
      intro s
      simp only [dinsert]
      by_cases h1 : k1 = k
      · subst h1
        rw [if_pos rfl]
        simp only [alookup]
        by_cases h2 : k1 = s
        · subst h2; simp
        · rw [if_neg h2, if_neg h2, if_neg (fun hh => h2 hh.symm)]
      · rw [if_neg h1]
        simp only [alookup]
        by_cases h2 : k1 = s
        · subst h2
          rw [if_pos rfl, if_neg h1, if_pos rfl]
        · rw [if_neg h2, if_neg h2, ih s]

lemma dinsert_dinsert {α : Type} :
    ∀ (d : List (String × α)) (k : String) (a b : α),
      dinsert (dinsert d k a) k b = dinsert d k b := by
  intro d k a b
  induction d with
  | nil => simp [dinsert]
  | cons p rest ih =>
      obtain ⟨k1, v1⟩ := p
      by_cases h : k1 = k
      · simp [dinsert, h]
      · simp [dinsert, h, ih]

lemma alookup_isSome_iff {α : Type} :
    ∀ (l : List (String × α)) (k : String),
      (alookup l k).isSome ↔ k ∈ l.map Prod.fst := by
  intro l k
  induction l with
  | nil => simp [alookup]
  | cons p rest ih =>
      obtain ⟨k1, v1⟩ := p
      by_cases h : k1 = k
      · subst h; simp [alookup]
      · simp [alookup, h, ih, Ne.symm h]

lemma alookup_of_mem_nodup {α : Type} :
    ∀ (l : List (String × α)) (k : String) (v : α),
      (l.map Prod.fst).Nodup → (k, v) ∈ l → alookup l k = some v := by
  intro l k v hnd hmem
  induction l with
  | nil => simp at hmem
  | cons p rest ih =>
      obtain ⟨k1, v1⟩ := p
      simp only [List.map_cons, List.nodup_cons] at hnd
      rcases List.mem_cons.mp hmem with h | h
      · injection h with h1 h2
        subst h1; subst h2
        simp [alookup]
      · have hne : k1 ≠ k := by
          intro hh
          subst hh
          exact hnd.1 (List.mem_map.mpr ⟨(k1, v), h, rfl⟩)
        simp only [alookup, if_neg hne]
        exact ih hnd.2 h

/-! ### List indexing lemmas -/

lemma getD_append_left {α : Type} :
    ∀ (l t : List α) (i : ℕ) (d : α), i < l.length → (l ++ t).getD i d = l.getD i d := by
  intro l
  induction l with
  | nil => intro t i d hi; simp at hi
  | cons x rest ih =>
      intro t i d hi
      cases i with
      | zero => rfl
      | succ i =>
          simp only [List.cons_append, List.getD_cons_succ]
          exact ih t i d (by simpa using hi)

lemma getD_append_len {α : Type} :
    ∀ (l : List α) (x d : α), (l ++ [x]).getD l.length d = x := by
  intro l
  induction l with
  | nil => intro x d; rfl
  | cons y rest ih => intro x d; simp only [List.cons_append, List.length_cons, List.getD_cons_succ]; exact ih x d

lemma getD_of_pref {α : Type} {l1 l2 : List α} (h : l1 <+: l2) (i : ℕ) (d : α)
    (hi : i < l1.length) : l2.getD i d = l1.getD i d := by
  obtain ⟨t, rfl⟩ := h
  exact getD_append_left l1 t i d hi

lemma getD_irrel {α : Type} :
    ∀ (l : List α) (i : ℕ) (d1 d2 : α), i < l.length → l.getD i d1 = l.getD i d2 := by
  intro l
  induction l with
  | nil => intro i d1 d2 hi; simp at hi
  | cons x rest ih =>
      intro i d1 d2 hi
      cases i with
      | zero => rfl
      | succ i => exact ih i d1 d2 (by simpa using hi)

lemma getLastD_eq_getD {α : Type} :
    ∀ (l : List α) (d : α), l ≠ [] → l.getLastD d = l.getD (l.length - 1) d := by
  intro l
  induction l with
  | nil => intro d h; exact absurd rfl h
  | cons x rest ih =>
      intro d _
      cases rest with
      | nil => rfl
      | cons y rest2 =>
          rw [List.getLastD_cons, ih x (by simp)]
          simp only [List.length_cons, Nat.add_sub_cancel, List.getD_cons_succ]
          exact getD_irrel _ _ _ _ (by simp)

lemma getD_replicate (n i : ℕ) :
    (List.replicate n ([] : Snapshot)).getD i [] = [] := by
  induction n generalizing i with
  | zero => cases i <;> rfl
  | succ n ih =>
      cases i with
      | zero => rfl
      | succ i => simp only [List.replicate_succ, List.getD_cons_succ]; exact ih i

/-! ### Structure of `extendLoop` -/

lemma extendLoop_discount : ∀ (c : ℕ) (m : MDP), ((extendLoop m c).2).discount = m.discount := by
  intro c
  induction c with
  | zero => intro m; rfl
  | succ c ih =>
      intro m
      rw [extendLoop]
      split
      · exact ih _
      · rfl

lemma extendLoop_states : ∀ (c : ℕ) (m : MDP), ((extendLoop m c).2).states = m.states := by
  intro c
  induction c with
  | zero => intro m; rfl
  | succ c ih =>
      intro m
      rw [extendLoop]
      split
      · exact ih _
      · rfl

lemma extendLoop_policies_pref :
    ∀ (c : ℕ) (m : MDP), m.optimal_policies <+: ((extendLoop m c).2).optimal_policies := by
  intro c
  induction c with
  | zero => intro m; exact List.prefix_rfl
  | succ c ih =>
      intro m
      rw [extendLoop]
      split
      · rename_i u snap heq
        have h1 := ih { m with optimal_policies := m.optimal_policies ++ [snap] }
        exact (List.prefix_append _ _).trans h1
      · exact List.prefix_append _ _

lemma extendLoop_ok_length :
    ∀ (c : ℕ) (m : MDP), (extendLoop m c).1 = .ok () →
      ((extendLoop m c).2).optimal_policies.length = m.optimal_policies.length + c := by
  intro c
  induction c with
  | zero => intro m _; rfl
  | succ c ih =>
      intro m
      rw [extendLoop]
      split
      · intro h
        have hl := ih _ h
        simp only [List.length_append, List.length_singleton] at hl
        omega
      · intro h
        simp at h

/-! ### The only runtime error of an extension is a missing destination -/

lemma expectedAux_error :
    ∀ (prev : Snapshot) (outs : List (String × ℚ)) (acc : PyQ) (e : MDPError),
      expectedAux prev acc outs = .error e → e = .UnknownDestinationState := by
  intro prev outs
  induction outs with
  | nil => intro acc e h; simp [expectedAux] at h
  | cons q rest ih =>
      intro acc e h
      obtain ⟨toSt, p⟩ := q
      rw [expectedAux] at h
      split at h
      · exact ih _ e h
      · exact (Except.error.inj h).symm

lemma getBestAux_error :
    ∀ (prev : Snapshot) (acts : List (String × List (String × ℚ)))
      (curr : String × PyQ) (e : MDPError),
      getBestAux prev curr acts = .error e → e = .UnknownDestinationState := by
  intro prev acts
  induction acts with
  | nil => intro curr e h; simp [getBestAux] at h
  | cons q rest ih =>
      intro curr e h
      obtain ⟨a, outs⟩ := q
      rw [getBestAux] at h
      split at h
      · rename_i e0 heq
        exact (Except.error.inj h) ▸ expectedAux_error prev outs (.fin 0) e0 heq
      · split at h
        · exact ih _ e h
        · exact ih _ e h

lemma computeSnapshotAux_error :
    ∀ (d : ℚ) (prev : Snapshot) (sts : List (String × MDPState)) (acc : Snapshot)
      (e : MDPError) (snap : Snapshot),
      computeSnapshotAux d prev sts acc = (.error e, snap) → e = .UnknownDestinationState := by
  intro d prev sts
  induction sts with
  | nil => intro acc e snap h; simp [computeSnapshotAux] at h
  | cons q rest ih =>
      intro acc e snap h
      obtain ⟨st, sm⟩ := q
      rw [computeSnapshotAux] at h
      split at h
      · rename_i e0 heq
        injection h with h1 h2
        injection h1 with h3
        subst h3
        exact getBestAux_error prev sm.actions ("", PyQ.ninf) e0
          (by simpa [MDP._get_best_action] using heq)
      · exact ih _ e snap h

lemma extendLoop_error :
    ∀ (c : ℕ) (m : MDP) (e : MDPError), (extendLoop m c).1 = .error e →
      e = .UnknownDestinationState ∧
      m.optimal_policies.length < ((extendLoop m c).2).optimal_policies.length := by
  intro c
  induction c with
  | zero => intro m e h; simp [extendLoop] at h
  | succ c ih =>
      intro m e
      rw [extendLoop]
      split
      · intro h
        obtain ⟨he, hlt⟩ := ih _ e h
        refine ⟨he, lt_of_le_of_lt ?_ hlt⟩
        simp
      · rename_i e0 snap heq
        intro h
        have he0 : e0 = e := Except.error.inj h
        subst he0
        exact ⟨computeSnapshotAux_error _ _ _ _ _ _ heq, by simp⟩

/-! ### C3, C6: cache growth and failure atomicity -/

/-- C3: the snapshot history is append-only and memoized.  For every engine
and every request `n`: the old history is a prefix of the new one (so no
cached snapshot is recomputed, edited or removed, and the length never
decreases); a successful call leaves exactly `max (current length) n`
snapshots, i.e. only the missing suffix is computed; a request not exceeding
the cached length changes nothing at all; and after a successful `extend n`,
any `extend j` with `j ≤ n` returns the engine unchanged — in particular
`extend k` then `extend j` with `j < k` leaves every cached snapshot with
identical action and value. -/
theorem c3_append_only_memoized (m : MDP) (n : ℕ) :
    m.optimal_policies <+: ((MDP.find_optimal_policies m n).2).optimal_policies ∧
    m.optimal_policies.length ≤ ((MDP.find_optimal_policies m n).2).optimal_policies.length ∧
    ((MDP.find_optimal_policies m n).1 = .ok () →
      ((MDP.find_optimal_policies m n).2).optimal_policies.length
        = max m.optimal_policies.length n) ∧
    (n ≤ m.optimal_policies.length → MDP.find_optimal_policies m n = (.ok (), m)) ∧
    (∀ j, j ≤ n → (MDP.find_optimal_policies m n).1 = .ok () →
      MDP.find_optimal_policies ((MDP.find_optimal_policies m n).2) j
        = (.ok (), (MDP.find_optimal_policies m n).2)) := by
  by_cases hlt : m.optimal_policies.length < n
  · simp only [MDP.find_optimal_policies, if_pos hlt]
    refine ⟨extendLoop_policies_pref _ _, (extendLoop_policies_pref _ _).length_le, ?_, ?_, ?_⟩
    · intro h
      rw [extendLoop_ok_length _ _ h]
      omega
    · intro h
      exact absurd hlt (not_lt.mpr h)
    · intro j hj h
      have hlen := extendLoop_ok_length _ _ h
      have hok : ¬((extendLoop m (n - m.optimal_policies.length)).2.optimal_policies.length < j) := by
        omega
      simp only [MDP.find_optimal_policies, if_neg hok]
  · simp only [MDP.find_optimal_policies, if_neg hlt]
    refine ⟨List.prefix_rfl, le_refl _, ?_, fun _ => trivial, ?_⟩
    · intro _
      omega
    · intro j hj _
      show MDP.find_optimal_policies m j = (.ok (), m)
      have hok : ¬(m.optimal_policies.length < j) := by omega
      simp only [MDP.find_optimal_policies, if_neg hok]

/-- Witness for C3 at a concrete engine: extending the scenario engine to 2
iterations and then asking for 1 returns it unchanged. -/
theorem c3_witness :
    MDP.find_optimal_policies ((MDP.find_optimal_policies demoMDP 2).2) 1
      = (.ok (), (MDP.find_optimal_policies demoMDP 2).2) :=
  (c3_append_only_memoized demoMDP 2).2.2.2.2 1 (by decide) (by decide)

/-- C6 fails on the code: extending an engine whose single action references
the missing destination `S9` raises `UnknownDestinationState`, but the
engine is NOT left as it was before the call — a partially filled snapshot
(here `[("S1", empty)]`) has been appended, so the history length grows from
1 to 2. -/
theorem c6_counterexample :
    (MDP.find_optimal_policies badMDP 2).1 = .error .UnknownDestinationState ∧
    (MDP.find_optimal_policies badMDP 2).2 ≠ badMDP ∧
    ((MDP.find_optimal_policies badMDP 2).2).optimal_policies.length = 2 ∧
    badMDP.optimal_policies.length = 1 ∧
    ((MDP.find_optimal_policies badMDP 2).2).optimal_policies.getD 1 []
      = [("S1", PEntry.empty)] := by decide

/-- C6 amended: a failing extension does raise `UnknownDestinationState` (the
only runtime error an extension can produce), and the previously cached
snapshots survive unchanged as a prefix, but the history is not rolled back:
the partially computed snapshot of the failing iteration remains visible, so
the history is strictly longer than before the call. -/
theorem c6_error_amended (m : MDP) (n : ℕ) (e : MDPError)
    (h : (MDP.find_optimal_policies m n).1 = .error e) :
    e = .UnknownDestinationState ∧
    m.optimal_policies <+: ((MDP.find_optimal_policies m n).2).optimal_policies ∧
    m.optimal_policies.length < ((MDP.find_optimal_policies m n).2).optimal_policies.length := by
  by_cases hlt : m.optimal_policies.length < n
  · simp only [MDP.find_optimal_policies, if_pos hlt] at h ⊢
    obtain ⟨he, hl⟩ := extendLoop_error _ _ _ h
    exact ⟨he, extendLoop_policies_pref _ _, hl⟩
  · simp only [MDP.find_optimal_policies, if_neg hlt] at h
    simp at h

/-- Witness for the amended C6 at the concrete failing engine. -/
theorem c6_witness :
    MDPError.UnknownDestinationState = MDPError.UnknownDestinationState ∧
    badMDP.optimal_policies <+: ((MDP.find_optimal_policies badMDP 2).2).optimal_policies ∧
    badMDP.optimal_policies.length
      < ((MDP.find_optimal_policies badMDP 2).2).optimal_policies.length :=
  c6_error_amended badMDP 2 .UnknownDestinationState (by decide)

/-! ### C4: snapshot 0 -/

/-- C4: at engine construction (with a valid discount), before any
extension, the history holds exactly one snapshot, and it assigns every
state the `None` action sentinel and exactly its own reward as value. -/
theorem c4_snapshot0 (d : ℚ) (states : List (String × MDPState)) (s : String)
    (sm : MDPState) (h0 : 0 ≤ d) (h1 : d ≤ 1) (hs : alookup states s = some sm) :
    ∃ m, MDP.init d states = .ok m ∧
      m.optimal_policies.length = 1 ∧
      alookup (m.optimal_policies.getD 0 []) s
        = some (PEntry.full none (PyQ.fin sm.reward)) := by
  have hcond : ¬(d < 0 ∨ 1 < d) := by
    rintro (h | h)
    · exact absurd h (not_lt.mpr h0)
    · exact absurd h (not_lt.mpr h1)
  refine ⟨MDP.mk d states
      [states.map (fun p => (p.1, PEntry.full none (PyQ.fin p.2.reward)))], ?_, rfl, ?_⟩
  · simp only [MDP.init, if_neg hcond]
  · have hmap := alookup_map (fun v : MDPState => PEntry.full none (PyQ.fin v.reward)) states s
    show alookup (states.map (fun p => (p.1, PEntry.full none (PyQ.fin p.2.reward)))) s
        = some (PEntry.full none (PyQ.fin sm.reward))
    rw [hmap, hs]
    rfl

/-- Witness for C4 on the scenario model: snapshot 0 gives `S2` action
`None` and value 10. -/
theorem c4_witness :
    ∃ m, MDP.init ((9:ℚ)/10) demoStates = .ok m ∧
      m.optimal_policies.length = 1 ∧
      alookup (m.optimal_policies.getD 0 []) "S2"
        = some (PEntry.full none (PyQ.fin (MDPState.mk 10 []).reward)) :=
  c4_snapshot0 ((9:ℚ)/10) demoStates "S2" (MDPState.mk 10 []) (by norm_num) (by norm_num)
    (by decide)

/-! ### C10: the empty state collection -/

lemma extendLoop_empty (c : ℕ) (d : ℚ) (pol : List Snapshot) :
    extendLoop (MDP.mk d [] pol) c = (.ok (), MDP.mk d [] (pol ++ List.replicate c [])) := by
  induction c generalizing pol with
  | zero => simp [extendLoop]
  | succ c ih =>
      show extendLoop (MDP.mk d [] (pol ++ [[]])) c
          = (.ok (), MDP.mk d [] (pol ++ List.replicate (c + 1) []))
      rw [ih]
      simp [List.replicate_succ]

lemma strs_on_headers (m : MDP) (h : ∀ i : ℕ, m.optimal_policies.getD i [] = ([] : Snapshot)) :
    ∀ l : List ℕ,
      strs_aux m l = some (l.map (fun i => "After iteration " ++ toString (i + 1) ++ ":")) := by
  intro l
  induction l with
  | nil => rfl
  | cons i rest ih =>
      rw [strs_aux, h i, ih]
      rfl

/-- C10: no engine operation requires a non-empty state collection.  Over the
empty collection, construction succeeds with snapshot 0 the empty mapping,
every `extend k` succeeds and leaves `max 1 k` empty snapshots, and rendering
succeeds, producing one bare header line per iteration. -/
theorem c10_empty_model : ∀ d : ℚ, 0 ≤ d → d ≤ 1 →
    ∃ m0, MDP.init d [] = .ok m0 ∧ m0.optimal_policies = [[]] ∧
      ∀ k : ℕ, ∃ mk2, MDP.find_optimal_policies m0 k = (.ok (), mk2) ∧
        mk2.optimal_policies = List.replicate (max 1 k) [] ∧
        ∀ e : ℕ, MDP.optimal_policy_strs mk2 e
          = some (String.intercalate "\n" ((List.range (min e (max 1 k))).map
              (fun i => "After iteration " ++ toString (i + 1) ++ ":"))) := by
  intro d h0 h1
  have hcond : ¬(d < 0 ∨ 1 < d) := by
    rintro (h | h)
    · exact absurd h (not_lt.mpr h0)
    · exact absurd h (not_lt.mpr h1)
  refine ⟨MDP.mk d [] [[]], by simp only [MDP.init, if_neg hcond]; rfl, rfl, ?_⟩
  intro k
  refine ⟨MDP.mk d [] (List.replicate (max 1 k) []), ?_, rfl, ?_⟩
  · by_cases hk : 1 < k
    · have hrep : ([[]] : List Snapshot) ++ List.replicate (k - 1) []
          = List.replicate (max 1 k) [] := by
        have h2 : max 1 k = 1 + (k - 1) := by omega
        rw [h2, List.replicate_add]
        rfl
      have hlen : (MDP.mk d [] [[]]).optimal_policies.length < k := by
        show 1 < k
        omega
      rw [MDP.find_optimal_policies, if_pos hlen]
      have h3 := extendLoop_empty (k - 1) d [[]]
      rw [hrep] at h3
      exact h3
    · have hlen : ¬((MDP.mk d [] [[]]).optimal_policies.length < k) := by
        show ¬(1 < k)
        omega
      rw [MDP.find_optimal_policies, if_neg hlen]
      have h2 : max 1 k = 1 := by omega
      rw [h2]
      rfl
  · intro e
    rw [MDP.optimal_policy_strs,
      strs_on_headers _ (fun i => getD_replicate _ i) (List.range _)]
    show some (String.intercalate "\n" _) = _
    rw [List.length_replicate]

/-- Witness for C10 at discount one half. -/
theorem c10_witness :
    ∃ m0, MDP.init ((1:ℚ)/2) [] = .ok m0 ∧ m0.optimal_policies = [[]] ∧
      ∀ k : ℕ, ∃ mk2, MDP.find_optimal_policies m0 k = (.ok (), mk2) ∧
        mk2.optimal_policies = List.replicate (max 1 k) [] ∧
        ∀ e : ℕ, MDP.optimal_policy_strs mk2 e
          = some (String.intercalate "\n" ((List.range (min e (max 1 k))).map
              (fun i => "After iteration " ++ toString (i + 1) ++ ":"))) :=
  c10_empty_model ((1:ℚ)/2) (by norm_num) (by norm_num)

/-! ### Per-state structure of one computed iteration -/

lemma computeSnapshot_preserve :
    ∀ (d : ℚ) (prev : Snapshot) (sts : List (String × MDPState)) (acc : Snapshot)
      (r : Except MDPError Unit) (snap : Snapshot),
      computeSnapshotAux d prev sts acc = (r, snap) → r = .ok () →
      ∀ s, s ∉ sts.map Prod.fst → alookup snap s = alookup acc s := by
  intro d prev sts
  induction sts with
  | nil =>
      intro acc r snap h hr s hs
      injection h with h1 h2
      subst h2
      rfl
  | cons q rest ih =>
      obtain ⟨st, sm⟩ := q
      intro acc r snap h hr s hs
      simp only [computeSnapshotAux] at h
      split at h
      · injection h with h1 h2
        subst hr
        exact Except.noConfusion h1
      · simp only [List.map_cons, List.mem_cons, not_or] at hs
        obtain ⟨hne, hs2⟩ := hs
        rw [ih _ _ _ h hr s hs2, alookup_dinsert, if_neg hne, alookup_dinsert, if_neg hne]

lemma getBestAux_cases :
    ∀ (prev : Snapshot) (acts : List (String × List (String × ℚ))) (curr res : String × PyQ),
      getBestAux prev curr acts = .ok res →
      res = curr ∨ ∃ outs, (res.1, outs) ∈ acts ∧ expectedAux prev (.fin 0) outs = .ok res.2 := by
  intro prev acts
  induction acts with
  | nil =>
      intro curr res h
      left
      exact (Except.ok.inj h).symm
  | cons q rest ih =>
      obtain ⟨a, outs⟩ := q
      intro curr res h
      rw [getBestAux] at h
      split at h
      · exact Except.noConfusion h
      · rename_i tm heq
        split at h
        · rcases ih _ _ h with h1 | ⟨outs2, hmem, hexp⟩
          · right
            rw [h1]
            exact ⟨outs, by simp, heq⟩
          · right
            exact ⟨outs2, List.mem_cons_of_mem _ hmem, hexp⟩
        · rcases ih _ _ h with h1 | ⟨outs2, hmem, hexp⟩
          · left
            exact h1
          · right
            exact ⟨outs2, List.mem_cons_of_mem _ hmem, hexp⟩

lemma computeSnapshot_ok_lookup :
    ∀ (d : ℚ) (prev : Snapshot) (sts : List (String × MDPState)) (acc : Snapshot)
      (snap : Snapshot),
      computeSnapshotAux d prev sts acc = (.ok (), snap) →
      (sts.map Prod.fst).Nodup →
      ∀ s sm, alookup sts s = some sm →
      ∃ ba : String × PyQ, MDP._get_best_action prev sm = .ok ba ∧
        alookup snap s = some (PEntry.full (some ba.1)
          ((PyQ.fin sm.reward).add (PyQ.smul d ba.2))) := by
  intro d prev sts
  induction sts with
  | nil =>
      intro acc snap h hnd s sm hs
      simp [alookup] at hs
  | cons q rest ih =>
      obtain ⟨st, sm0⟩ := q
      intro acc snap h hnd s sm hs
      simp only [computeSnapshotAux] at h
      split at h
      · injection h with h1 h2
        exact Except.noConfusion h1
      · rename_i ba heq
        simp only [List.map_cons, List.nodup_cons] at hnd
        rw [alookup] at hs
        by_cases hss : st = s
        · subst hss
          rw [if_pos rfl] at hs
          injection hs with hsm
          subst hsm
          refine ⟨ba, heq, ?_⟩
          rw [computeSnapshot_preserve d prev rest _ _ _ h rfl st hnd.1,
            dinsert_dinsert, alookup_dinsert, if_pos rfl]
        · rw [if_neg hss] at hs
          exact ih _ _ h hnd.2 s sm hs

lemma extendLoop_step :
    ∀ (c : ℕ) (m : MDP), (extendLoop m c).1 = .ok () →
      ∀ i, 1 ≤ i → m.optimal_policies.length ≤ i →
        i < ((extendLoop m c).2).optimal_policies.length →
        computeSnapshotAux m.discount
            (((extendLoop m c).2).optimal_policies.getD (i - 1) []) m.states []
          = (.ok (), ((extendLoop m c).2).optimal_policies.getD i []) := by
  intro c
  induction c with
  | zero =>
      intro m h i h1 h2 h3
      simp only [extendLoop] at h3
      exact absurd h3 (by omega)
  | succ c ih =>
      intro m h i h1 h2 h3
      cases heq : computeSnapshotAux m.discount (m.optimal_policies.getLastD []) m.states []
        with
      | mk r snap =>
      cases r with
      | error e =>
          rw [extendLoop, heq] at h
          simp at h
      | ok u =>
          cases u
          have hunfold : extendLoop m (c + 1)
              = extendLoop { m with optimal_policies := m.optimal_policies ++ [snap] } c := by
            rw [extendLoop, heq]
          rw [hunfold] at h h3 ⊢
          have hm1len : ({ m with optimal_policies := m.optimal_policies ++ [snap] }
              : MDP).optimal_policies.length = m.optimal_policies.length + 1 := by simp
          by_cases hi : ({ m with optimal_policies := m.optimal_policies ++ [snap] }
              : MDP).optimal_policies.length ≤ i
          · exact ih _ h i h1 hi h3
          · have hieq : i = m.optimal_policies.length := by omega
            subst hieq
            have hpref := extendLoop_policies_pref c
              { m with optimal_policies := m.optimal_policies ++ [snap] }
            have hg1 : ((extendLoop { m with
                  optimal_policies := m.optimal_policies ++ [snap] } c).2).optimal_policies.getD
                  m.optimal_policies.length []
                = snap := by
              rw [getD_of_pref hpref _ _ (by simp)]
              exact getD_append_len _ _ _
            have hg0 : ((extendLoop { m with
                  optimal_policies := m.optimal_policies ++ [snap] } c).2).optimal_policies.getD
                  (m.optimal_policies.length - 1) []
                = m.optimal_policies.getLastD [] := by
              have hpref2 : m.optimal_policies <+: ((extendLoop { m with
                  optimal_policies := m.optimal_policies ++ [snap] } c).2).optimal_policies :=
                (List.prefix_append m.optimal_policies [snap]).trans hpref
              rw [getD_of_pref hpref2 _ _ (by omega),
                getLastD_eq_getD m.optimal_policies [] (List.length_pos.mp (by omega))]
            rw [hg0, hg1]
            exact heq

/-! ### C1, C5: the Bellman backup per state -/

/-- C1 fails on the code as stated.  In the chain model (`S1` with its single
action `a → S2`, `S2` with no actions, discount 0.9), after `extend(3)`,
snapshot 2 records for `S1` the action `""` — which is not an action of `S1`,
so its expected value per the claim is the empty sum 0 — and the value
`-inf`, while the claim's formula `reward + discount * expected(best)` yields
`0 + 0.9 * 0 = 0`.  (Snapshot 1 gives `S2` the value `-inf`; at iteration 2
the single action's expected value is `-inf`, which never beats the initial
`curr_best`, so no action is selected.) -/
theorem c1_counterexample :
    (MDP.find_optimal_policies cexMDP 3).1 = .ok () ∧
    (alookup cexStates "S1").map (fun sm => sm.actions.length) = some 1 ∧
    alookup (((MDP.find_optimal_policies cexMDP 3).2).optimal_policies.getD 2 []) "S1"
      = some (PEntry.full (some "") PyQ.ninf) ∧
    (alookup cexStates "S1").map (fun sm => alookup sm.actions "") = some none ∧
    PyQ.ninf ≠ (PyQ.fin 0).add (PyQ.smul ((9:ℚ)/10) (PyQ.fin 0)) := by decide

/-- C1 amended: for every state of a successfully extended engine and every
newly computed iteration `i ≥ 1`, the recorded entry is
`full (some a) (reward + discount * bv)` where `(a, bv)` is the result of the
best-action selection against snapshot `i-1`; and whenever the selection
actually selected an action (`bv ≠ -inf`, i.e. some action's expected value
beat the initial `curr_best`), `a` is an action of the state and `bv` is
exactly its expected value `Σ p * snapshot[i-1][to_state].value` (an empty
sum being 0).  When no action's expected value compares above `-inf`
(possible only through `-inf`/`nan` values originating from no-action
states), the recorded action is the sentinel `""` and the value is
`reward + discount * (-inf)` under IEEE arithmetic. -/
theorem c1_value_formula_amended (m : MDP) (n : ℕ) (i : ℕ) (s : String) (sm : MDPState)
    (hok : (MDP.find_optimal_policies m n).1 = .ok ())
    (hi1 : 1 ≤ i) (hi2 : m.optimal_policies.length ≤ i)
    (hi3 : i < ((MDP.find_optimal_policies m n).2).optimal_policies.length)
    (hnd : (m.states.map Prod.fst).Nodup)
    (hs : alookup m.states s = some sm)
    (hnd2 : (sm.actions.map Prod.fst).Nodup) :
    ∃ a bv,
      MDP._get_best_action
          (((MDP.find_optimal_policies m n).2).optimal_policies.getD (i - 1) []) sm
        = .ok (a, bv) ∧
      alookup (((MDP.find_optimal_policies m n).2).optimal_policies.getD i []) s
        = some (PEntry.full (some a) ((PyQ.fin sm.reward).add (PyQ.smul m.discount bv))) ∧
      (bv ≠ PyQ.ninf → ∃ outs, alookup sm.actions a = some outs ∧
        expectedAux (((MDP.find_optimal_policies m n).2).optimal_policies.getD (i - 1) [])
            (PyQ.fin 0) outs = .ok bv) := by
  by_cases hlt : m.optimal_policies.length < n
  · simp only [MDP.find_optimal_policies, if_pos hlt] at hok hi3 ⊢
    have hstep := extendLoop_step _ m hok i hi1 hi2 hi3
    obtain ⟨ba, hba, hlook⟩ :=
      computeSnapshot_ok_lookup m.discount _ m.states [] _ hstep hnd s sm hs
    refine ⟨ba.1, ba.2, hba, hlook, ?_⟩
    intro hbv
    rcases getBestAux_cases _ sm.actions ("", PyQ.ninf) ba
        (by rw [MDP._get_best_action] at hba; exact hba) with h1 | ⟨outs, hmem, hexp⟩
    · exact absurd (congrArg Prod.snd h1) hbv
    · exact ⟨outs, alookup_of_mem_nodup _ _ _ hnd2 hmem, hexp⟩
  · simp only [MDP.find_optimal_policies, if_neg hlt] at hi3
    exact absurd hi3 (by omega)

/-- Witness for the amended C1: in the scenario engine at iteration 1, `S1`
selects action `b` with expected value 10 and records value `0 + 0.9*10`. -/
theorem c1_witness :
    ∃ a bv,
      MDP._get_best_action
          (((MDP.find_optimal_policies demoMDP 2).2).optimal_policies.getD 0 [])
          (MDPState.mk 0 [("a", [("S1", 1)]), ("b", [("S2", 1)])])
        = .ok (a, bv) ∧
      alookup (((MDP.find_optimal_policies demoMDP 2).2).optimal_policies.getD 1 []) "S1"
        = some (PEntry.full (some a)
            ((PyQ.fin (MDPState.mk 0 [("a", [("S1", 1)]), ("b", [("S2", 1)])]).reward).add
              (PyQ.smul demoMDP.discount bv))) ∧
      (bv ≠ PyQ.ninf → ∃ outs,
        alookup (MDPState.mk 0 [("a", [("S1", 1)]), ("b", [("S2", 1)])]).actions a
          = some outs ∧
        expectedAux (((MDP.find_optimal_policies demoMDP 2).2).optimal_policies.getD 0 [])
            (PyQ.fin 0) outs = .ok bv) :=
  c1_value_formula_amended demoMDP 2 1 "S1" (MDPState.mk 0 [("a", [("S1", 1)]), ("b", [("S2", 1)])])
    (by decide) (by decide) (by decide) (by decide) (by decide) (by decide) (by decide)

/-- C5 fails on the code as stated: in the specification's own two-state
scenario (discount 0.9, `S2` reward 10 with no actions), snapshot 1 records
for `S2` not the `None` sentinel with value 10, but the empty-string sentinel
with value `10 + 0.9 * (-inf) = -inf`, because `_get_best_action` returns
`["", -inf]` when the actions dict is empty and the value formula is applied
to it unconditionally. -/
theorem c5_counterexample :
    (MDP.find_optimal_policies demoMDP 2).1 = .ok () ∧
    (alookup demoStates "S2").map (fun sm => sm.actions) = some ([] : ActionsDict) ∧
    alookup (((MDP.find_optimal_policies demoMDP 2).2).optimal_policies.getD 1 []) "S2"
      = some (PEntry.full (some "") PyQ.ninf) ∧
    PEntry.full (some "") PyQ.ninf ≠ PEntry.full none (PyQ.fin 10) := by decide

/-- C5 amended: a state with no actions keeps `(None, reward)` only in
snapshot 0; every computed snapshot `i ≥ 1` assigns it the empty-string
sentinel `""` (not `None`) and the value `reward + discount * (-inf)`, which
equals `-inf` whenever the discount is positive. -/
theorem c5_no_action_amended (m : MDP) (n : ℕ) (i : ℕ) (s : String) (sm : MDPState)
    (hok : (MDP.find_optimal_policies m n).1 = .ok ())
    (hi1 : 1 ≤ i) (hi2 : m.optimal_policies.length ≤ i)
    (hi3 : i < ((MDP.find_optimal_policies m n).2).optimal_policies.length)
    (hnd : (m.states.map Prod.fst).Nodup)
    (hs : alookup m.states s = some sm)
    (hact : sm.actions = []) :
    alookup (((MDP.find_optimal_policies m n).2).optimal_policies.getD i []) s
      = some (PEntry.full (some "")
          ((PyQ.fin sm.reward).add (PyQ.smul m.discount PyQ.ninf))) ∧
    (0 < m.discount →
      (PyQ.fin sm.reward).add (PyQ.smul m.discount PyQ.ninf) = PyQ.ninf) := by
  by_cases hlt : m.optimal_policies.length < n
  · simp only [MDP.find_optimal_policies, if_pos hlt] at hok hi3 ⊢
    have hstep := extendLoop_step _ m hok i hi1 hi2 hi3
    obtain ⟨ba, hba, hlook⟩ :=
      computeSnapshot_ok_lookup m.discount _ m.states [] _ hstep hnd s sm hs
    have hba2 : ba = ("", PyQ.ninf) := by
      rw [MDP._get_best_action, hact, getBestAux] at hba
      exact (Except.ok.inj hba).symm
    subst hba2
    refine ⟨hlook, ?_⟩
    intro hd
    simp [PyQ.smul, if_pos hd, PyQ.add]
  · simp only [MDP.find_optimal_policies, if_neg hlt] at hi3
    exact absurd hi3 (by omega)

/-- Witness for the amended C5 at the scenario engine: snapshot 1 gives `S2`
the `""` sentinel and value `-inf`. -/
theorem c5_witness :
    (alookup (((MDP.find_optimal_policies demoMDP 2).2).optimal_policies.getD 1 []) "S2"
      = some (PEntry.full (some "")
          ((PyQ.fin (MDPState.mk 10 []).reward).add (PyQ.smul demoMDP.discount PyQ.ninf))) ∧
    (0 < demoMDP.discount →
      (PyQ.fin (MDPState.mk 10 []).reward).add (PyQ.smul demoMDP.discount PyQ.ninf)
        = PyQ.ninf)) :=
  c5_no_action_amended demoMDP 2 1 "S2" (MDPState.mk 10 [])
    (by decide) (by decide) (by decide) (by decide) (by decide) (by decide) (by decide)

/-! ### C2: deterministic first-maximum selection -/

lemma PyQ.lt_fin_fin (x y : ℚ) : (PyQ.lt (PyQ.fin x) (PyQ.fin y) = true) ↔ x < y := by
  simp [PyQ.lt]

lemma getBestAux_cons_ok (prev : Snapshot) (c : String × PyQ) (a : String)
    (o : List (String × ℚ)) (rest : List (String × List (String × ℚ))) (tm : PyQ)
    (h : expectedAux prev (.fin 0) o = .ok tm) :
    getBestAux prev c ((a, o) :: rest)
      = if c.2.lt tm then getBestAux prev (a, tm) rest else getBestAux prev c rest := by
  rw [getBestAux, h]

lemma getBestAux_first_max :
    ∀ (prev : Snapshot) (acts : List (String × List (String × ℚ))) (qs : List ℚ),
      expectedsOf prev acts = .ok (qs.map PyQ.fin) →
      ∀ (c : String) (cq : ℚ),
        (getBestAux prev (c, PyQ.fin cq) acts = .ok (c, PyQ.fin cq) ∧
          ∀ k, k < qs.length → qs.getD k 0 ≤ cq) ∨
        (∃ j, j < acts.length ∧ j < qs.length ∧
          getBestAux prev (c, PyQ.fin cq) acts
            = .ok ((acts.getD j ("", [])).1, PyQ.fin (qs.getD j 0)) ∧
          cq < qs.getD j 0 ∧
          (∀ k, k < qs.length → qs.getD k 0 ≤ qs.getD j 0) ∧
          (∀ k, k < j → qs.getD k 0 < qs.getD j 0)) := by
  intro prev acts
  induction acts with
  | nil =>
      intro qs hexp c cq
      have hq : qs.map PyQ.fin = [] := (Except.ok.inj hexp).symm
      have hq2 : qs = [] := List.map_eq_nil_iff.mp hq
      subst hq2
      left
      exact ⟨rfl, fun k hk => absurd hk (Nat.not_lt_zero k)⟩
  | cons p rest ih =>
      obtain ⟨a, o⟩ := p
      intro qs hexp c cq
      simp only [expectedsOf] at hexp
      split at hexp
      · rename_i v vs heq1 heq2
        have h3 := Except.ok.inj hexp
        cases qs with
        | nil => simp at h3
        | cons q0 qs2 =>
            simp only [List.map_cons] at h3
            injection h3 with h4 h5
            subst h4
            subst h5
            rw [getBestAux_cons_ok prev (c, PyQ.fin cq) a o rest _ heq1]
            by_cases hlt : cq < q0
            · rw [if_pos ((PyQ.lt_fin_fin cq q0).mpr hlt)]
              rcases ih qs2 heq2 a q0 with ⟨hres, hall⟩ | ⟨j, hj1, hj2, hres, hcq, hall, hstrict⟩
              · right
                refine ⟨0, by simp, by simp, by simpa using hres, by simpa using hlt, ?_, ?_⟩
                · intro k hk
                  cases k with
                  | zero => simp
                  | succ k =>
                      simp only [List.getD_cons_succ, List.getD_cons_zero]
                      exact hall k (by simpa using hk)
                · intro k hk
                  exact absurd hk (Nat.not_lt_zero k)
              · right
                refine ⟨j + 1, by simpa using hj1, by simpa using hj2,
                  by simpa using hres, ?_, ?_, ?_⟩
                · simp only [List.getD_cons_succ]
                  exact lt_trans hlt hcq
                · intro k hk
                  cases k with
                  | zero =>
                      simp only [List.getD_cons_zero, List.getD_cons_succ]
                      exact le_of_lt hcq
                  | succ k =>
                      simp only [List.getD_cons_succ]
                      exact hall k (by simpa using hk)
                · intro k hk
                  cases k with
                  | zero =>
                      simp only [List.getD_cons_zero, List.getD_cons_succ]
                      exact hcq
                  | succ k =>
                      simp only [List.getD_cons_succ]
                      exact hstrict k (by omega)
            · rw [if_neg (fun hh => hlt ((PyQ.lt_fin_fin cq q0).mp hh))]
              have hq0 : q0 ≤ cq := le_of_not_lt hlt
              rcases ih qs2 heq2 c cq with ⟨hres, hall⟩ | ⟨j, hj1, hj2, hres, hcq, hall, hstrict⟩
              · left
                refine ⟨hres, ?_⟩
                intro k hk
                cases k with
                | zero => simpa using hq0
                | succ k =>
                    simp only [List.getD_cons_succ]
                    exact hall k (by simpa using hk)
              · right
                refine ⟨j + 1, by simpa using hj1, by simpa using hj2,
                  by simpa using hres, ?_, ?_, ?_⟩
                · simp only [List.getD_cons_succ]
                  exact hcq
                · intro k hk
                  cases k with
                  | zero =>
                      simp only [List.getD_cons_zero, List.getD_cons_succ]
                      exact le_trans hq0 (le_of_lt hcq)
                  | succ k =>
                      simp only [List.getD_cons_succ]
                      exact hall k (by simpa using hk)
                · intro k hk
                  cases k with
                  | zero =>
                      simp only [List.getD_cons_zero, List.getD_cons_succ]
                      exact lt_of_le_of_lt hq0 hcq
                  | succ k =>
                      simp only [List.getD_cons_succ]
                      exact hstrict k (by omega)
      · exact Except.noConfusion hexp
      · exact Except.noConfusion hexp

lemma getBestAux_first_max_top :
    ∀ (prev : Snapshot) (acts : List (String × List (String × ℚ))) (qs : List ℚ),
      acts ≠ [] →
      expectedsOf prev acts = .ok (qs.map PyQ.fin) →
      ∃ j, j < acts.length ∧ j < qs.length ∧
        getBestAux prev ("", PyQ.ninf) acts
          = .ok ((acts.getD j ("", [])).1, PyQ.fin (qs.getD j 0)) ∧
        (∀ k, k < qs.length → qs.getD k 0 ≤ qs.getD j 0) ∧
        (∀ k, k < j → qs.getD k 0 < qs.getD j 0) := by
  intro prev acts qs hne hexp
  cases acts with
  | nil => exact absurd rfl hne
  | cons p rest =>
      obtain ⟨a, o⟩ := p
      simp only [expectedsOf] at hexp
      split at hexp
      · rename_i v vs heq1 heq2
        have h3 := Except.ok.inj hexp
        cases qs with
        | nil => simp at h3
        | cons q0 qs2 =>
            simp only [List.map_cons] at h3
            injection h3 with h4 h5
            subst h4
            subst h5
            rw [getBestAux_cons_ok prev ("", PyQ.ninf) a o rest _ heq1,
              if_pos (show PyQ.lt ("", PyQ.ninf).2 (PyQ.fin q0) = true from rfl)]
            rcases getBestAux_first_max prev rest qs2 heq2 a q0 with
              ⟨hres, hall⟩ | ⟨j, hj1, hj2, hres, hcq, hall, hstrict⟩
            · refine ⟨0, by simp, by simp, by simpa using hres, ?_, ?_⟩
              · intro k hk
                cases k with
                | zero => simp
                | succ k =>
                    simp only [List.getD_cons_succ, List.getD_cons_zero]
                    exact hall k (by simpa using hk)
              · intro k hk
                exact absurd hk (Nat.not_lt_zero k)
            · refine ⟨j + 1, by simpa using hj1, by simpa using hj2,
                by simpa using hres, ?_, ?_⟩
              · intro k hk
                cases k with
                | zero =>
                    simp only [List.getD_cons_zero, List.getD_cons_succ]
                    exact le_of_lt hcq
                | succ k =>
                    simp only [List.getD_cons_succ]
                    exact hall k (by simpa using hk)
              · intro k hk
                cases k with
                | zero =>
                    simp only [List.getD_cons_zero, List.getD_cons_succ]
                    exact hcq
                | succ k =>
                    simp only [List.getD_cons_succ]
                    exact hstrict k (by omega)
      · exact Except.noConfusion hexp
      · exact Except.noConfusion hexp

/-- C2: on any state with at least one action whose per-action expected
values (in stored action order) are the finite list `qs`, the selection is a
pure function of the model — identical on every run — and returns the FIRST
action attaining the maximum expected value, together with that value: the
selected index `j` satisfies `qs[k] ≤ qs[j]` for every `k` and
`qs[k] < qs[j]` for every `k < j`, so an action whose expected value merely
equals the current best never replaces it, and on ties the earlier action in
stored order wins. -/
theorem c2_tie_break_first_max (prev : Snapshot) (sm : MDPState) (qs : List ℚ)
    (hne : sm.actions ≠ [])
    (hexp : expectedsOf prev sm.actions = .ok (qs.map PyQ.fin)) :
    ∃ j, j < sm.actions.length ∧ j < qs.length ∧
      MDP._get_best_action prev sm
        = .ok ((sm.actions.getD j ("", [])).1, PyQ.fin (qs.getD j 0)) ∧
      (∀ k, k < qs.length → qs.getD k 0 ≤ qs.getD j 0) ∧
      (∀ k, k < j → qs.getD k 0 < qs.getD j 0) := by
  rw [MDP._get_best_action]
  exact getBestAux_first_max_top prev sm.actions qs hne hexp

/-- Witness for C2: three actions with expected values `[2, 2, 1]` — a tie
between the first two — select index 0, the earlier of the tied pair. -/
theorem c2_witness :
    ∃ j, j < (MDPState.mk 0 [("a1", [("X", (1:ℚ)/2)]), ("a2", [("X", (1:ℚ)/2)]),
        ("a3", [("X", (1:ℚ)/4)])]).actions.length ∧ j < [(2:ℚ), 2, 1].length ∧
      MDP._get_best_action [("X", PEntry.full none (PyQ.fin 4))]
          (MDPState.mk 0 [("a1", [("X", (1:ℚ)/2)]), ("a2", [("X", (1:ℚ)/2)]),
            ("a3", [("X", (1:ℚ)/4)])])
        = .ok (((MDPState.mk 0 [("a1", [("X", (1:ℚ)/2)]), ("a2", [("X", (1:ℚ)/2)]),
            ("a3", [("X", (1:ℚ)/4)])]).actions.getD j ("", [])).1,
            PyQ.fin ([(2:ℚ), 2, 1].getD j 0)) ∧
      (∀ k, k < [(2:ℚ), 2, 1].length → [(2:ℚ), 2, 1].getD k 0 ≤ [(2:ℚ), 2, 1].getD j 0) ∧
      (∀ k, k < j → [(2:ℚ), 2, 1].getD k 0 < [(2:ℚ), 2, 1].getD j 0) :=
  c2_tie_break_first_max [("X", PEntry.full none (PyQ.fin 4))]
    (MDPState.mk 0 [("a1", [("X", (1:ℚ)/2)]), ("a2", [("X", (1:ℚ)/2)]),
      ("a3", [("X", (1:ℚ)/4)])])
    [(2:ℚ), 2, 1] (by decide) (by decide)

/-! ### C7: rendering -/

lemma strFoldl_shift :
    ∀ (l : List String) (a : String),
      l.foldl (fun r s2 => r ++ s2) a = a ++ l.foldl (fun r s2 => r ++ s2) "" := by
  intro l
  induction l with
  | nil => intro a; simp
  | cons s l ih =>
      intro a
      show l.foldl _ (a ++ s) = a ++ l.foldl _ ("" ++ s)
      rw [ih (a ++ s), ih ("" ++ s)]
      simp [String.append_assoc]

lemma strJoin_cons (s : String) (l : List String) :
    String.join (s :: l) = s ++ String.join l := by
  show l.foldl (fun r s2 => r ++ s2) ("" ++ s) = s ++ l.foldl (fun r s2 => r ++ s2) ""
  rw [strFoldl_shift l ("" ++ s)]
  simp

lemma policy_line_full :
    ∀ (snap : Snapshot) (acc : String),
      (∀ p ∈ snap, p.2 ≠ PEntry.empty) →
      policy_line_aux acc snap
        = some (acc ++ String.join (snap.map (fun p => segOfEntry p.1 p.2))) := by
  intro snap
  induction snap with
  | nil =>
      intro acc _
      simp [policy_line_aux, String.join]
  | cons q rest ih =>
      obtain ⟨st, e⟩ := q
      intro acc hf
      cases e with
      | empty => exact absurd rfl (hf (st, PEntry.empty) (by simp))
      | full a v =>
          rw [policy_line_aux, ih _ (fun p hp => hf p (List.mem_cons_of_mem _ hp))]
          rw [List.map_cons, strJoin_cons, String.append_assoc]

lemma map_seg_gen :
    ∀ (snap2 snap : Snapshot),
      (∀ p ∈ snap2, alookup snap p.1 = some p.2) →
      (∀ p ∈ snap2, p.2 ≠ PEntry.empty) →
      snap2.map (fun p => segOfEntry p.1 p.2)
        = snap2.map (fun p => " (" ++ p.1 ++ " " ++ pyStr (entryActionD (alookup snap p.1))
            ++ " " ++ PyQ.format4 (entryValD (alookup snap p.1)) ++ ")") := by
  intro snap2 snap hinv hfull
  apply List.map_congr_left
  intro p hp
  have hl := hinv p hp
  rw [hl]
  cases hpe : p.2 with
  | empty => exact absurd hpe (hfull p hp)
  | full a v => rfl

lemma mem_alookup_self :
    ∀ (snap : Snapshot), (snap.map Prod.fst).Nodup →
      ∀ p ∈ snap, alookup snap p.1 = some p.2 := by
  intro snap hnd p hp
  have : (p.1, p.2) ∈ snap := by
    have : p = (p.1, p.2) := rfl
    rw [← this]
    exact hp
  exact alookup_of_mem_nodup snap p.1 p.2 hnd this

lemma optimal_policy_str_spec (m : MDP) (i : ℕ)
    (hk : (m.optimal_policies.getD i []).map Prod.fst = m.states.map Prod.fst)
    (hnd : (m.states.map Prod.fst).Nodup)
    (hf : ∀ p ∈ m.optimal_policies.getD i [], p.2 ≠ PEntry.empty) :
    MDP._optimal_policy_str (m.optimal_policies.getD i []) i = some (specLine m i) := by
  rw [MDP._optimal_policy_str, policy_line_full _ _ hf, specLine]
  congr 1
  congr 1
  have hnd2 : ((m.optimal_policies.getD i []).map Prod.fst).Nodup := by rw [hk]; exact hnd
  rw [map_seg_gen _ _ (mem_alookup_self _ hnd2) hf]
  have h1 : (m.optimal_policies.getD i []).map
        (fun p => " (" ++ p.1 ++ " " ++ pyStr (entryActionD (alookup (m.optimal_policies.getD i []) p.1))
          ++ " " ++ PyQ.format4 (entryValD (alookup (m.optimal_policies.getD i []) p.1)) ++ ")")
      = ((m.optimal_policies.getD i []).map Prod.fst).map
        (fun st => " (" ++ st ++ " " ++ pyStr (entryActionD (alookup (m.optimal_policies.getD i []) st))
          ++ " " ++ PyQ.format4 (entryValD (alookup (m.optimal_policies.getD i []) st)) ++ ")") := by
    rw [List.map_map]
    rfl
  have h2 : (m.states).map
        (fun p => " (" ++ p.1 ++ " " ++ pyStr (entryActionD (alookup (m.optimal_policies.getD i []) p.1))
          ++ " " ++ PyQ.format4 (entryValD (alookup (m.optimal_policies.getD i []) p.1)) ++ ")")
      = ((m.states).map Prod.fst).map
        (fun st => " (" ++ st ++ " " ++ pyStr (entryActionD (alookup (m.optimal_policies.getD i []) st))
          ++ " " ++ PyQ.format4 (entryValD (alookup (m.optimal_policies.getD i []) st)) ++ ")") := by
    rw [List.map_map]
    rfl
  rw [h1, h2, hk]

lemma strs_aux_spec (m : MDP)
    (hk : ∀ snap ∈ m.optimal_policies, snap.map Prod.fst = m.states.map Prod.fst)
    (hf : ∀ snap ∈ m.optimal_policies, ∀ p ∈ snap, p.2 ≠ PEntry.empty)
    (hnd : (m.states.map Prod.fst).Nodup) :
    ∀ l : List ℕ, (∀ i ∈ l, i < m.optimal_policies.length) →
      strs_aux m l = some (l.map (specLine m)) := by
  intro l
  induction l with
  | nil => intro _; rfl
  | cons i rest ih =>
      intro hl
      have hi : i < m.optimal_policies.length := hl i (by simp)
      have hmem : m.optimal_policies.getD i [] ∈ m.optimal_policies := by
        rw [List.getD_eq_getElem _ _ hi]
        exact List.getElem_mem hi
      rw [strs_aux, optimal_policy_str_spec m i (hk _ hmem) hnd (hf _ hmem),
        ih (fun j hj => hl j (List.mem_cons_of_mem _ hj))]
      rfl

/-- C7: rendering with bound `e` is a pure read producing exactly one line
per iteration index in `[0, min(e, cached))` — `e` is clamped to the number
of cached snapshots, and rendering a well-formed engine (snapshot keys in
stored state order, all entries filled, state names unique — as every
engine-built history satisfies) never fails and never extends the history.
Each line is `After iteration i+1:` followed by one
` ({state} {action} {value:.4f})` segment per state in stored state order
(`specLine`), and `e = 0` renders the empty string. -/
theorem c7_render (m : MDP) (e : ℕ)
    (hk : ∀ snap ∈ m.optimal_policies, snap.map Prod.fst = m.states.map Prod.fst)
    (hf : ∀ snap ∈ m.optimal_policies, ∀ p ∈ snap, p.2 ≠ PEntry.empty)
    (hnd : (m.states.map Prod.fst).Nodup) :
    MDP.optimal_policy_strs m e
      = some (String.intercalate "\n"
          ((List.range (min e m.optimal_policies.length)).map (specLine m))) ∧
    MDP.optimal_policy_strs m 0 = some "" := by
  constructor
  · rw [MDP.optimal_policy_strs, strs_aux_spec m hk hf hnd _ ?_]
    · rfl
    · intro i hi
      have := List.mem_range.mp hi
      omega
  · rw [MDP.optimal_policy_strs]
    simp only [Nat.zero_min, List.range_zero, strs_aux, Option.map_some]
    rfl

/-- Witness for C7 on the extended scenario engine with over-large bound 5:
the render clamps to the 2 cached snapshots. -/
theorem c7_witness :
    MDP.optimal_policy_strs ((MDP.find_optimal_policies demoMDP 2).2) 5
      = some (String.intercalate "\n"
          ((List.range (min 5 ((MDP.find_optimal_policies demoMDP 2).2).optimal_policies.length)).map
            (specLine ((MDP.find_optimal_policies demoMDP 2).2)))) ∧
    MDP.optimal_policy_strs ((MDP.find_optimal_policies demoMDP 2).2) 0 = some "" :=
  c7_render ((MDP.find_optimal_policies demoMDP 2).2) 5 (by decide) (by decide) (by decide)

/-! ### C8: failure conditions of StateModel construction -/

lemma three_induction {P : List String → Prop} (h0 : P []) (h1 : ∀ x, P [x])
    (h2 : ∀ x y, P [x, y])
    (h3 : ∀ x y z rest, P rest → P (x :: y :: z :: rest)) :
    ∀ l, P l
  | [] => h0
  | [x] => h1 x
  | [x, y] => h2 x y
  | x :: y :: z :: rest => h3 x y z rest (three_induction h0 h1 h2 h3 rest)

lemma parseLineAux_spec (pf : String → Option ℚ) :
    ∀ (arr : List String) (acc : ActionsDict),
      (parseLineAux pf acc arr = .error .MalformedActionTriple ↔
        (arr.length % 3 ≠ 0 ∨ ∃ tok ∈ probTokens arr, pf (tok.dropRight 1) = none)) ∧
      ((arr.length % 3 = 0 ∧ ∀ tok ∈ probTokens arr, pf (tok.dropRight 1) ≠ none) →
        ∃ d2, parseLineAux pf acc arr = .ok d2) := by
  intro arr
  induction arr using three_induction with
  | h0 =>
      intro acc
      constructor
      · simp [parseLineAux, probTokens]
      · intro _
        exact ⟨acc, rfl⟩
  | h1 x =>
      intro acc
      constructor
      · simp [parseLineAux, probTokens]
      · intro h
        obtain ⟨hl, _⟩ := h
        simp at hl
  | h2 x y =>
      intro acc
      constructor
      · simp [parseLineAux, probTokens]
      · intro h
        obtain ⟨hl, _⟩ := h
        simp at hl
  | h3 x y z rest ih =>
      intro acc
      have htok : probTokens (x :: y :: z :: rest) = z :: probTokens rest := by
        simp [probTokens]
      have hlen : (x :: y :: z :: rest).length % 3 = rest.length % 3 := by
        simp only [List.length_cons]
        omega
      cases hpf : pf (z.dropRight 1) with
      | none =>
          constructor
          · constructor
            · intro _
              exact Or.inr ⟨z, by simp [htok], hpf⟩
            · intro _
              rw [parseLineAux, hpf]
          · intro h
            obtain ⟨_, hall⟩ := h
            exact absurd hpf (hall z (by simp [htok]))
      | some q =>
          have heq : parseLineAux pf acc (x :: y :: z :: rest)
              = parseLineAux pf (insertTriple acc (x.drop 1) y q) rest := by
            rw [parseLineAux, hpf]
          obtain ⟨ih1, ih2⟩ := ih (insertTriple acc (x.drop 1) y q)
          constructor
          · rw [heq, ih1, hlen, htok]
            constructor
            · rintro (h | ⟨tok, hmem, hnone⟩)
              · exact Or.inl h
              · exact Or.inr ⟨tok, by simp [hmem], hnone⟩
            · rintro (h | ⟨tok, hmem, hnone⟩)
              · exact Or.inl h
              · rcases List.mem_cons.mp hmem with h2 | h2
                · subst h2
                  exact absurd hnone (by simp [hpf])
                · exact Or.inr ⟨tok, h2, hnone⟩
          · intro h
            obtain ⟨hl2, hall⟩ := h
            rw [hlen] at hl2
            obtain ⟨d2, hd⟩ := ih2 ⟨hl2, fun tok hmem =>
              hall tok (by rw [htok]; exact List.mem_cons_of_mem _ hmem)⟩
            exact ⟨d2, heq.trans hd⟩

/-- C8: construction of a state from the flat token list fails with
`MalformedActionTriple` exactly when the length is not a multiple of 3 or
some probability token (stripped of its trailing character, as the source
does before calling `float`) fails to parse; on all other inputs it succeeds
— it is a pure function with no side effects, and no other error is
possible. -/
theorem c8_malformed_triple (pf : String → Option ℚ) (r : ℚ) (arr : List String) :
    (mkState pf r arr = .error .MalformedActionTriple ↔
      (arr.length % 3 ≠ 0 ∨ ∃ tok ∈ probTokens arr, pf (tok.dropRight 1) = none)) ∧
    ((arr.length % 3 = 0 ∧ ∀ tok ∈ probTokens arr, pf (tok.dropRight 1) ≠ none) →
      ∃ sm, mkState pf r arr = .ok sm) := by
  obtain ⟨h1, h2⟩ := parseLineAux_spec pf arr []
  constructor
  · rw [← h1, mkState, _parse_line]
    cases hp : parseLineAux pf [] arr with
    | ok d2 => simp
    | error e => simp
  · intro h
    obtain ⟨d2, hd⟩ := h2 h
    refine ⟨⟨r, d2⟩, ?_⟩
    rw [mkState, _parse_line, hd]

/-- Witness for C8: a well-formed triple parses; a lone token and an
unparsable probability token are rejected. -/
theorem c8_witness :
    (∃ sm, mkState (fun s => if s = "bad" then none else some 1) 0 ["(a", "B", "0.5)"]
      = .ok sm) ∧
    mkState (fun s => if s = "bad" then none else some 1) 0 ["(a"]
      = .error .MalformedActionTriple ∧
    mkState (fun s => if s = "bad" then none else some 1) 0 ["(a", "B", "bad)"]
      = .error .MalformedActionTriple :=
  ⟨(c8_malformed_triple (fun s => if s = "bad" then none else some 1) 0
      ["(a", "B", "0.5)"]).2 (by decide),
   (c8_malformed_triple (fun s => if s = "bad" then none else some 1) 0 ["(a"]).1.mpr
      (Or.inl (by decide)),
   (c8_malformed_triple (fun s => if s = "bad" then none else some 1) 0
      ["(a", "B", "bad)"]).1.mpr (Or.inr ⟨"bad)", by decide, by decide⟩)⟩

/-! ### C9: duplicate (action, destination) pairs — last write wins -/

lemma nested_insertTriple (d : ActionsDict) (a0 to0 : String) (p : ℚ) (a toS : String) :
    nestedLookup (insertTriple d a0 to0 p) a toS
      = if a = a0 ∧ toS = to0 then some p else nestedLookup d a toS := by
  cases h : alookup d a0 with
  | none =>
      by_cases ha : a = a0
      · subst ha
        by_cases hto : toS = to0
        · subst hto
          simp [insertTriple, h, nestedLookup, alookup_dinsert]
        · simp [insertTriple, h, nestedLookup, alookup_dinsert, hto, alookup]
          exact fun hh => hto hh.symm
      · simp [insertTriple, h, nestedLookup, alookup_dinsert, ha]
  | some inner =>
      by_cases ha : a = a0
      · subst ha
        by_cases hto : toS = to0
        · subst hto
          simp [insertTriple, h, nestedLookup, alookup_dinsert]
        · simp [insertTriple, h, nestedLookup, alookup_dinsert, hto]
      · simp [insertTriple, h, nestedLookup, alookup_dinsert, ha]

lemma insertTriple_keys (d : ActionsDict) (a0 to0 : String) (p : ℚ) (a : String) :
    (alookup (insertTriple d a0 to0 p) a).isSome ↔ (a = a0 ∨ (alookup d a).isSome) := by
  cases h : alookup d a0 with
  | none =>
      by_cases ha : a = a0
      · subst ha
        simp [insertTriple, h, alookup_dinsert]
      · simp [insertTriple, h, alookup_dinsert, ha]
  | some inner =>
      by_cases ha : a = a0
      · subst ha
        simp [insertTriple, h, alookup_dinsert]
      · simp [insertTriple, h, alookup_dinsert, ha]

lemma foldIns_nested :
    ∀ (ts : List (String × String × ℚ)) (acc : ActionsDict) (a toS : String),
      nestedLookup (ts.foldl (fun d t => insertTriple d t.1 t.2.1 t.2.2) acc) a toS
        = (match (ts.filter (fun t => decide (t.1 = a ∧ t.2.1 = toS))).getLast? with
            | some t => some t.2.2
            | none => nestedLookup acc a toS) := by
  intro ts
  induction ts with
  | nil => intro acc a toS; rfl
  | cons t0 ts2 ih =>
      intro acc a toS
      rw [List.foldl_cons, ih]
      by_cases hP : t0.1 = a ∧ t0.2.1 = toS
      · have hfil : (t0 :: ts2).filter (fun t => decide (t.1 = a ∧ t.2.1 = toS))
            = t0 :: ts2.filter (fun t => decide (t.1 = a ∧ t.2.1 = toS)) := by
          simp [List.filter_cons, hP]
        rw [hfil]
        have hins : nestedLookup (insertTriple acc t0.1 t0.2.1 t0.2.2) a toS
            = some t0.2.2 := by
          rw [nested_insertTriple, if_pos ⟨hP.1.symm, hP.2.symm⟩]
        cases hlast : (ts2.filter (fun t => decide (t.1 = a ∧ t.2.1 = toS))).getLast? with
        | none =>
            have hemp : ts2.filter (fun t => decide (t.1 = a ∧ t.2.1 = toS)) = [] :=
              List.getLast?_eq_none_iff.mp hlast
            simp only [hlast, hemp, List.getLast?_singleton]
            exact hins
        | some tl =>
            have hne : ts2.filter (fun t => decide (t.1 = a ∧ t.2.1 = toS)) ≠ [] := by
              intro hh
              rw [hh] at hlast
              simp at hlast
            have hcons : (t0 :: ts2.filter (fun t => decide (t.1 = a ∧ t.2.1 = toS))).getLast?
                = (ts2.filter (fun t => decide (t.1 = a ∧ t.2.1 = toS))).getLast? := by
              cases hfl : ts2.filter (fun t => decide (t.1 = a ∧ t.2.1 = toS)) with
              | nil => exact absurd hfl hne
              | cons f fs => rw [List.getLast?_cons_cons]
            simp only [hlast, hcons]
      · have hfil : (t0 :: ts2).filter (fun t => decide (t.1 = a ∧ t.2.1 = toS))
            = ts2.filter (fun t => decide (t.1 = a ∧ t.2.1 = toS)) := by
          simp [List.filter_cons, hP]
        rw [hfil]
        cases hlast : (ts2.filter (fun t => decide (t.1 = a ∧ t.2.1 = toS))).getLast? with
        | some tl => simp only [hlast]
        | none =>
            simp only [hlast]
            rw [nested_insertTriple, if_neg (fun hh => hP ⟨hh.1.symm, hh.2.symm⟩)]

lemma foldIns_keys :
    ∀ (ts : List (String × String × ℚ)) (acc : ActionsDict) (a : String),
      (alookup (ts.foldl (fun d t => insertTriple d t.1 t.2.1 t.2.2) acc) a).isSome
        ↔ (a ∈ ts.map (fun t => t.1) ∨ (alookup acc a).isSome) := by
  intro ts
  induction ts with
  | nil => intro acc a; simp
  | cons t0 ts2 ih =>
      intro acc a
      rw [List.foldl_cons, ih, insertTriple_keys]
      simp only [List.map_cons, List.mem_cons]
      tauto

lemma parseLineAux_foldl (pf : String → Option ℚ) :
    ∀ (arr : List String) (ts : List (String × String × ℚ)) (acc : ActionsDict),
      parsedTriples pf arr = some ts →
      parseLineAux pf acc arr
        = .ok (ts.foldl (fun d t => insertTriple d t.1 t.2.1 t.2.2) acc) := by
  intro arr
  induction arr using three_induction with
  | h0 =>
      intro ts acc h
      have h2 := Option.some.inj h
      subst h2
      rfl
  | h1 x =>
      intro ts acc h
      simp [parsedTriples] at h
  | h2 x y =>
      intro ts acc h
      simp [parsedTriples] at h
  | h3 x y z rest ih =>
      intro ts acc h
      rw [parsedTriples] at h
      split at h
      · rename_i q ts2 hq hts
        have h2 := Option.some.inj h
        subst h2
        rw [parseLineAux, hq]
        exact ih ts2 _ hts
      · exact Option.noConfusion h

/-- C9: when the flat triple list decodes (length a multiple of 3, all
probabilities parse), construction succeeds — duplicates are not rejected —
and the resulting actions mapping groups the triples by action name: an
action name has an entry exactly when it occurs among the decoded triples,
and the probability stored for a given (action, destination) pair is the one
of the LAST occurrence of that pair in input order. -/
theorem c9_last_write_wins (pf : String → Option ℚ) (r : ℚ) (arr : List String)
    (ts : List (String × String × ℚ)) (hts : parsedTriples pf arr = some ts) :
    ∃ sm, mkState pf r arr = .ok sm ∧ sm.reward = r ∧
      (∀ a toS, nestedLookup sm.actions a toS
        = ((ts.filter (fun t => decide (t.1 = a ∧ t.2.1 = toS))).getLast?).map
            (fun t => t.2.2)) ∧
      (∀ a, (alookup sm.actions a).isSome ↔ a ∈ ts.map (fun t => t.1)) := by
  have hp := parseLineAux_foldl pf arr ts [] hts
  refine ⟨⟨r, ts.foldl (fun d t => insertTriple d t.1 t.2.1 t.2.2) []⟩, ?_, rfl, ?_, ?_⟩
  · rw [mkState, _parse_line, hp]
  · intro a toS
    show nestedLookup (ts.foldl (fun d t => insertTriple d t.1 t.2.1 t.2.2) []) a toS = _
    rw [foldIns_nested]
    cases hlast : (ts.filter (fun t => decide (t.1 = a ∧ t.2.1 = toS))).getLast? with
    | some tl =>
        simp only [hlast]
        rfl
    | none =>
        simp only [hlast]
        rfl
  · intro a
    show (alookup (ts.foldl (fun d t => insertTriple d t.1 t.2.1 t.2.2) []) a).isSome ↔ _
    rw [foldIns_keys]
    simp [alookup]

/-- Witness for C9: the pair `(a, B)` appears twice with probabilities 0.3
then 0.7; construction succeeds and keeps 0.7. -/
theorem c9_witness :
    ∃ sm, mkState (fun s => if s = "0.3" then some ((3:ℚ)/10)
        else if s = "0.7" then some ((7:ℚ)/10) else none) 1
        ["(a", "B", "0.3)", "(a", "B", "0.7)"] = .ok sm ∧
      sm.reward = 1 ∧
      (∀ a toS, nestedLookup sm.actions a toS
        = ((([("a", "B", (3:ℚ)/10), ("a", "B", (7:ℚ)/10)].filter
            (fun t => decide (t.1 = a ∧ t.2.1 = toS))).getLast?).map (fun t => t.2.2))) ∧
      (∀ a, (alookup sm.actions a).isSome
        ↔ a ∈ [("a", "B", (3:ℚ)/10), ("a", "B", (7:ℚ)/10)].map (fun t => t.1)) :=
  c9_last_write_wins (fun s => if s = "0.3" then some ((3:ℚ)/10)
      else if s = "0.7" then some ((7:ℚ)/10) else none) 1
    ["(a", "B", "0.3)", "(a", "B", "0.7)"]
    [("a", "B", (3:ℚ)/10), ("a", "B", (7:ℚ)/10)] (by decide)
